import Mathlib

/-!
Shallow embedding of the gaitalytics core (event checking, gait-cycle
segmentation, temporal features, time normalisation and hierarchical
persistence) together with theorems settling the specification claims.

Times are modelled as rationals, event tables as lists of rows plus an
attribute record (mirroring `pandas.DataFrame.attrs`), labelled arrays as a
time-indexed sample list plus an attribute record (mirroring
`xarray.DataArray.attrs`), and fallible Python code as `Except`-valued
functions.
-/

namespace Gaitalytics

/-- One row of the event table: columns `time`, `label`, `context`, `icon_id`
(`io.EventInputFileReader.COLUMN_*`). -/
structure Event where
  time : ℚ
  label : String
  context : String
  icon_id : Option ℤ := none
deriving DecidableEq, Repr

instance : Inhabited Event := ⟨⟨0, "", "", none⟩⟩

/-- The `attrs` dictionary of an event `DataFrame`, restricted to the three
keys the code ever reads (`end_time`, `context`, `cycle_id`); a `none` field
models an absent key (reading it raises `KeyError`). -/
structure EventAttrs where
  end_time : Option ℚ := none
  context : Option String := none
  cycle_id : Option ℕ := none
deriving DecidableEq, Repr

/-- An event table: the ordered rows of the `DataFrame` plus its `attrs`. -/
structure EventTable where
  rows : List Event
  attrs : EventAttrs := {}
deriving DecidableEq, Repr

/-! ## events.py — `SequenceEventChecker` -/

/-- `SequenceEventChecker._check_labels`: walk the rows keeping the previous
label and time; two time-adjacent rows sharing a label record the window
`(previous_time, current_time)`.  The accumulator pair mirrors the
`last_label` / `last_time` variables (both `None` before the first row). -/
def check_labels_go : Option String → Option ℚ → List Event → List (ℚ × ℚ)
  | _, _, [] => []
  | lastLabel, lastTime, e :: rest =>
    if lastLabel = some e.label then
      (lastTime.getD 0, e.time) :: check_labels_go (some e.label) (some e.time) rest
    else
      check_labels_go (some e.label) (some e.time) rest

/-- `SequenceEventChecker._check_labels` on an event table. -/
def check_labels (events : EventTable) : List (ℚ × ℚ) :=
  check_labels_go none none events.rows

/-- `events[CONTEXT].iloc[i : i + 3].value_counts().max()`: the largest
number of occurrences of any single context value in the window `w`. -/
def max_occurrence (w : List Event) : ℕ :=
  (w.map (fun e => w.countP (fun x => x.context == e.context))).foldl max 0

/-- `SequenceEventChecker._check_contexts`: for `i in range(len(events) - 3)`,
if some context occurs more than twice among rows `i, i+1, i+2`, record the
window `(time[i], time[i+3])`. -/
def check_contexts (events : EventTable) : List (ℚ × ℚ) :=
  (List.range (events.rows.length - 3)).filterMap fun i =>
    if max_occurrence ((events.rows.drop i).take 3) > 2 then
      some ((events.rows.getD i default).time, (events.rows.getD (i + 3) default).time)
    else
      none

/-- `SequenceEventChecker.check_events`: raises on a null table, otherwise
appends each check's violation list (when non-empty) to `incorrect_times` and
returns `(not bool(incorrect_times), incorrect_times or None)`. -/
def check_events (events : Option EventTable) :
    Except String (Bool × Option (List (List (ℚ × ℚ)))) :=
  match events with
  | none => .error "Trial does not have events."
  | some tbl =>
    let incorrectLabels := check_labels tbl
    let incorrectContexts := check_contexts tbl
    let incorrectTimes :=
      (if incorrectLabels.isEmpty then [] else [incorrectLabels]) ++
        (if incorrectContexts.isEmpty then [] else [incorrectContexts])
    .ok (incorrectTimes.isEmpty, if incorrectTimes.isEmpty then none else some incorrectTimes)

/-! ## model.py — data model -/

/-- `model.DataCategory`: the enum of array categories (`MARKERS = "markers"`,
`ANALOGS = "analogs"`). -/
inductive DataCategory where
  | markers
  | analogs
deriving DecidableEq, Repr

/-- The string value of a `DataCategory` member. -/
def DataCategory.value : DataCategory → String
  | .markers => "markers"
  | .analogs => "analogs"

/-- The `attrs` dictionary of a category `xarray.DataArray`, restricted to the
keys the code reads or writes; `rate` is always present (set at ingest), the
segmentation attributes start absent. -/
structure ArrayAttrs where
  rate : ℚ
  start_frame : Option ℤ := none
  end_frame : Option ℤ := none
  cycle_id : Option ℕ := none
  context : Option String := none
deriving DecidableEq, Repr

/-- A labelled 3-D category array, represented as its channel labels, its
time-ordered samples (each sample pairs the time coordinate with the flat
list of channel×axis values at that time) and its `attrs`. -/
structure DataArray where
  channels : List String
  samples : List (ℚ × List ℚ)
  attrs : ArrayAttrs
deriving DecidableEq, Repr

/-- `model.Trial`: a mapping `DataCategory → DataArray` (insertion-ordered,
as a Python dict) plus an optional event table. -/
structure Trial where
  data : List (DataCategory × DataArray) := []
  events : Option EventTable := none
deriving DecidableEq, Repr

mutual
/-- `model.BaseTrial`: either a bare `model.Trial` or a `model.SegmentedTrial`
(a recursive insertion-ordered mapping from string keys to trials). -/
inductive BaseTrial where
  | leaf (t : Trial)
  | seg (s : Segments)
deriving DecidableEq, Repr
/-- The `_segments` dict of a `model.SegmentedTrial`, as an insertion-ordered
association list of keys and child trials. -/
inductive Segments where
  | nil
  | cons (key : String) (child : BaseTrial) (rest : Segments)
deriving DecidableEq, Repr
end

/-- The keys of a `SegmentedTrial`, in insertion order. -/
def Segments.keys : Segments → List String
  | .nil => []
  | .cons k _ rest => k :: rest.keys

/-- The ordered `(key, segment)` entries of a `SegmentedTrial`, as returned
by `get_all_segments().items()`. -/
def Segments.entries : Segments → List (String × BaseTrial)
  | .nil => []
  | .cons k c rest => (k, c) :: rest.entries

/-- The number of segments held by a `SegmentedTrial`. -/
def Segments.length : Segments → ℕ
  | .nil => 0
  | .cons _ _ rest => rest.length + 1

/-- `SegmentedTrial.get_segment` as a total lookup (first entry wins, like a
Python dict whose keys are distinct). -/
def Segments.lookup : Segments → String → Option BaseTrial
  | .nil, _ => none
  | .cons k c rest, k' => if k = k' then some c else rest.lookup k'

/-- Builds a `Segments` value from an association list, preserving order;
models a sequence of `add_segment` calls with pairwise distinct keys. -/
def Segments.ofList : List (String × BaseTrial) → Segments
  | [] => .nil
  | (k, c) :: rest => .cons k c (Segments.ofList rest)

/-- The leaf trial reached from `b` by following a path of segment keys. -/
def BaseTrial.leafAt : BaseTrial → List String → Option Trial
  | .leaf t, [] => some t
  | .seg s, k :: ps =>
    match s.lookup k with
    | some c => c.leafAt ps
    | none => none
  | _, _ => none

mutual
/-- The list of key paths from a container down to its leaf trials, in
iteration order. -/
def BaseTrial.leafPaths : BaseTrial → List (List String)
  | .leaf _ => [[]]
  | .seg s => s.leafPaths
/-- Key paths to leaves below a `Segments` mapping. -/
def Segments.leafPaths : Segments → List (List String)
  | .nil => []
  | .cons k c rest => (c.leafPaths.map (fun p => k :: p)) ++ rest.leafPaths
end

/-! ## segmentation.py — `GaitEventsSegmentation` -/

/-- Rounding used by `round(x, 0)` on the numpy scalars in `_update_attrs`:
round half to even. -/
def roundHalfEven (q : ℚ) : ℤ :=
  let f := ⌊q⌋
  let r := q - f
  if r < 1 / 2 then f
  else if r > 1 / 2 then f + 1
  else if f % 2 = 0 then f else f + 1

/-- `pandas.Series.unique` on the context column: the distinct values in
order of first appearance.  The first argument accumulates values seen so
far. -/
def uniqueAux : List String → List String → List String
  | _, [] => []
  | seen, x :: rest =>
    if seen.contains x then uniqueAux seen rest else x :: uniqueAux (x :: seen) rest

/-- `events[COLUMN_CONTEXT].unique()`. -/
def uniqueContexts (rows : List Event) : List String :=
  uniqueAux [] (rows.map (·.context))

/-- `GaitEventsSegmentation._get_times_of_events`: filter the rows to the
boundary label, then for each context of the full table (in `unique` order)
collect the times of the matching boundary rows, in table order. -/
def get_times_of_events (eventLabel : String) (events : EventTable) :
    List (String × List ℚ) :=
  let interestingEvents := events.rows.filter (fun e => e.label == eventLabel)
  (uniqueContexts events.rows).map fun context =>
    (context, (interestingEvents.filter (fun e => e.context == context)).map (·.time))

/-- `data.sel(time=slice(start_time, end_time))`: label slicing on an
increasing coordinate keeps the samples with `start_time ≤ t ≤ end_time`
(inclusive at both edges). -/
def selTime (d : DataArray) (startTime endTime : ℚ) : DataArray :=
  { d with samples := d.samples.filter (fun s => startTime ≤ s.1 && s.1 ≤ endTime) }

/-- `GaitEventsSegmentation._update_attrs`: stamps `start_frame`
(`round(time[0] / (1/rate), 0)`), `end_frame` (`round(time[-1] / (1/rate), 0)`),
`cycle_id` and `context` on the array; indexing `time[0]` of an empty array
raises `IndexError`. -/
def update_attrs (segment : DataArray) (cycleId : ℕ) (context : String) :
    Except String DataArray :=
  match segment.samples with
  | [] => .error "IndexError"
  | s0 :: rest =>
    let firstTime := s0.1
    let lastTime := ((s0 :: rest).getLast (by simp)).1
    let startFrame := roundHalfEven (firstTime / (1 / segment.attrs.rate))
    let endFrame := roundHalfEven (lastTime / (1 / segment.attrs.rate))
    .ok { segment with
          attrs := { segment.attrs with
                     start_frame := some startFrame
                     end_frame := some endFrame
                     cycle_id := some cycleId
                     context := some context } }

/-- `GaitEventsSegmentation._segment_events`: raises if the events are not
set, otherwise keeps the rows with `start_time < t < end_time` (strictly open
window).  Pandas boolean-mask indexing carries the table `attrs` over to the
result unchanged. -/
def segment_events (events : Option EventTable) (startTime endTime : ℚ) :
    Except String EventTable :=
  match events with
  | none => .error "Events are not set."
  | some tbl =>
    .ok { rows := tbl.rows.filter (fun e => startTime < e.time && e.time < endTime)
          attrs := tbl.attrs }

/-- The per-category body of the `_get_segment` loop: slice the array to the
closed window and stamp its attributes. -/
def segment_category (startTime endTime : ℚ) (cycleId : ℕ) (context : String)
    (cd : DataCategory × DataArray) : Except String (DataCategory × DataArray) := do
  let seg := selTime cd.2 startTime endTime
  let seg' ← update_attrs seg cycleId context
  pure (cd.1, seg')

/-- `GaitEventsSegmentation._get_segment`: slice every category array to the
closed window, stamp the array attributes, and attach the strictly-open slice
of the full event table. -/
def get_segment (trial : Trial) (startTime endTime : ℚ) (cycleId : ℕ)
    (context : String) : Except String Trial := do
  let data ← trial.data.mapM (segment_category startTime endTime cycleId context)
  let evs ← segment_events trial.events startTime endTime
  pure { data := data, events := some evs }

/-- The inner-loop body of `GaitEventsSegmentation.segment`: the dict entry
for one cycle, keyed `str(cycle_id)`, spanning `times[cycle_id]` to
`times[cycle_id + 1]`. -/
def build_cycle (trial : Trial) (ct : String × List ℚ) (cycleId : ℕ) :
    Except String (String × BaseTrial) := do
  let startTime := ct.2.getD cycleId 0
  let endTime := ct.2.getD (cycleId + 1) 0
  let seg ← get_segment trial startTime endTime cycleId ct.1
  pure (toString cycleId, BaseTrial.leaf seg)

/-- The outer-loop body of `GaitEventsSegmentation.segment`: the dict entry
for one context, holding the ordered cycle dict for
`cycle_id in range(len(times) - 1)`. -/
def build_context (trial : Trial) (ct : String × List ℚ) :
    Except String (String × BaseTrial) := do
  let cycleSegments ← (List.range (ct.2.length - 1)).mapM (build_cycle trial ct)
  pure (ct.1, BaseTrial.seg (Segments.ofList cycleSegments))

/-- `GaitEventsSegmentation.segment`: raises if the trial has no events;
otherwise builds the context dict of cycle dicts (all keys fresh, so
`add_segment` appends in loop order). -/
def segment (eventLabel : String) (trial : Trial) : Except String BaseTrial := do
  match trial.events with
  | none => .error "Trial does not have events."
  | some tbl =>
    let contextSegments ← (get_times_of_events eventLabel tbl).mapM (build_context trial)
    pure (.seg (Segments.ofList contextSegments))

/-- The data-model invariant on event tables (§3): rows are sorted ascending
by time. -/
def sortedTimes : List ℚ → Bool
  | [] => true
  | [_] => true
  | a :: b :: rest => decide (a ≤ b) && sortedTimes (b :: rest)

/-- `sortedTimes` on the time column of an event table. -/
def sortedByTime (rows : List Event) : Bool :=
  sortedTimes (rows.map (·.time))

/-- The data-model invariant on trials (§3) instantiated to segmentation:
every boundary-event time of every context is a sample time of every
category array (all categories span the recording containing the events). -/
def covers (trial : Trial) (eventLabel : String) (tbl : EventTable) : Bool :=
  (get_times_of_events eventLabel tbl).all fun ct =>
    ct.2.all fun t => trial.data.all fun cd => cd.2.samples.any fun sm => sm.1 == t

/-- The array produced by `_update_attrs` on a non-empty slice (the `.ok`
value of `update_attrs`). -/
def stamped (d : DataArray) (cycleId : ℕ) (context : String) : DataArray :=
  match d.samples with
  | [] => d
  | s0 :: rest =>
    { d with
      attrs := { d.attrs with
                 start_frame := some (roundHalfEven (s0.1 / (1 / d.attrs.rate)))
                 end_frame := some (roundHalfEven
                   (((s0 :: rest).getLast (by simp)).1 / (1 / d.attrs.rate)))
                 cycle_id := some cycleId
                 context := some context } }

/-- The sub-trial produced by a successful `_get_segment` call: sliced and
stamped category arrays, and the strictly-open slice of the parent events. -/
def seg_trial (trial : Trial) (tbl : EventTable) (startTime endTime : ℚ)
    (cycleId : ℕ) (context : String) : Trial :=
  { data := trial.data.map fun cd =>
      (cd.1, stamped (selTime cd.2 startTime endTime) cycleId context)
    events := some { rows := tbl.rows.filter
                       (fun ev => startTime < ev.time && ev.time < endTime)
                     attrs := tbl.attrs } }

/-- The time column of the boundary-label rows of one context, in table
order. -/
def boundary_times (eventLabel : String) (tbl : EventTable) (context : String) :
    List ℚ :=
  ((tbl.rows.filter (fun e => e.label == eventLabel)).filter
    (fun e => e.context == context)).map (·.time)

/-- The container produced by a successful `segment` call: one entry per
distinct context of the full table, holding the cycles over consecutive
boundary times. -/
def seg_result (eventLabel : String) (trial : Trial) (tbl : EventTable) : Segments :=
  Segments.ofList ((get_times_of_events eventLabel tbl).map fun ct =>
    (ct.1, BaseTrial.seg (Segments.ofList ((List.range (ct.2.length - 1)).map fun k =>
      (toString k, BaseTrial.leaf
        (seg_trial trial tbl (ct.2.getD k 0) (ct.2.getD (k + 1) 0) k ct.1))))))

/-! ## features.py — `TemporalFeatures` -/

/-- Modelled from the spec: the event-label vocabulary constant
`events.FOOT_STRIKE` ("Foot Strike"), whose defining assignment is not part
of the sources at hand (only its use in `TemporalFeatures`). -/
def FOOT_STRIKE : String := "Foot Strike"

/-- Modelled from the spec: the event-label vocabulary constant
`events.FOOT_OFF` ("Foot Off"), whose defining assignment is not part of the
sources at hand (only its use in `TemporalFeatures`). -/
def FOOT_OFF : String := "Foot Off"

/-- `series.values[0]`: the first value of a filtered column, raising
`IndexError` when the selection is empty. -/
def firstTime (l : List Event) : Except String ℚ :=
  match l with
  | [] => .error "IndexError"
  | e :: _ => .ok e.time

/-- `TemporalFeatures.check_events_validity`: reads `end_time`, `context` and
`cycle_id` from the table `attrs` (a missing key raises `KeyError`), requires
at least 3 rows, exactly one row of the cycle's own context and exactly two
rows of the opposite context, then returns
`(contra_fo_time, contra_fs_time, ipsi_fo_time, end_time)`. -/
def check_events_validity (trialEvents : Option EventTable) :
    Except String (ℚ × ℚ × ℚ × ℚ) :=
  match trialEvents with
  | none => .error "Trial does not have events."
  | some tbl =>
    match tbl.attrs.end_time with
    | none => .error "KeyError: end_time"
    | some endTime =>
      match tbl.attrs.context with
      | none => .error "KeyError: context"
      | some currenContext =>
        match tbl.attrs.cycle_id with
        | none => .error "KeyError: cycle_id"
        | some cycleId =>
          if tbl.rows.length < 3 then
            .error ("Missing events in segment " ++ currenContext ++ " nr. " ++
              toString cycleId)
          else
            let ipsiFo := tbl.rows.filter (fun e => e.context == currenContext)
            let contra := tbl.rows.filter (fun e => !(e.context == currenContext))
            if ipsiFo.length ≠ 1 then
              .error ("Error events sequence " ++ currenContext ++ " nr. " ++
                toString cycleId)
            else if contra.length ≠ 2 then
              .error ("Error events sequence " ++ currenContext ++ " nr. " ++
                toString cycleId)
            else do
              let ipsiFoTime ← firstTime ipsiFo
              let contraFsTime ← firstTime (contra.filter (fun e => e.label == FOOT_STRIKE))
              let contraFoTime ← firstTime (contra.filter (fun e => e.label == FOOT_OFF))
              pure (contraFoTime, contraFsTime, ipsiFoTime, endTime)

/-- `TemporalFeatures._calculate_supports`. -/
def calculate_supports (contraFoTime contraFsTime ipsiFoTime endTime : ℚ) :
    List (String × ℚ) :=
  [("double_support", (contraFoTime + (ipsiFoTime - contraFsTime)) / endTime),
   ("single_support", (contraFsTime - contraFoTime) / endTime)]

/-- `TemporalFeatures._calculate`: validity check, then the `result_dict`
entries in insertion order (`double_support`, `single_support`, `foot_off`,
`opposite_foot_off`, `opposite_foot_contact`, `stride_time`, `step_time`,
`cadence`), paired with the `feature` coordinate labels. -/
def temporal_calculate (trial : Trial) : Except String (List (String × ℚ)) := do
  let eventTimes ← check_events_validity trial.events
  let contraFo := eventTimes.1
  let contraFs := eventTimes.2.1
  let ipsiFo := eventTimes.2.2.1
  let endTime := eventTimes.2.2.2
  pure (calculate_supports contraFo contraFs ipsiFo endTime ++
    [("foot_off", ipsiFo / endTime),
     ("opposite_foot_off", contraFo / endTime),
     ("opposite_foot_contact", contraFs / endTime),
     ("stride_time", endTime),
     ("step_time", endTime - contraFs),
     ("cadence", 60 / (endTime / 2))])

/-! ## normalisation.py — `LinearTimeNormaliser` -/

/-- Linear interpolation of two value rows at parameter position `t` between
sample times `t0` and `t1`. -/
def lerpRow (t0 t1 : ℚ) (v0 v1 : List ℚ) (t : ℚ) : List ℚ :=
  List.zipWith (fun a b => a + (b - a) * ((t - t0) / (t1 - t0))) v0 v1

/-- Linear interpolation over a time-ordered sample list at time `t` (clamped
to the first/last sample). -/
def interpAt : List (ℚ × List ℚ) → ℚ → List ℚ
  | [], _ => []
  | [s], _ => s.2
  | s0 :: s1 :: rest, t =>
    if t ≤ s1.1 then lerpRow s0.1 s1.1 s0.2 s1.2 t else interpAt (s1 :: rest) t

/-- Modelled from the spec: the external pyomeca collaborator
`data.meca.time_normalize(n_frames, norm_time=True)` (§4.3), whose source is
outside this repository — resamples the array onto exactly `n_frames` equally
spaced samples covering the same start/end span by linear interpolation, and
re-expresses the time coordinate as a normalised parameter in `[0, 1]`. -/
def time_normalize (d : DataArray) (nFrames : ℕ) : DataArray :=
  let startTime := (d.samples.map (·.1)).headD 0
  let endTime := (d.samples.map (·.1)).getLastD 0
  { d with
    samples := (List.range nFrames).map fun j =>
      let u : ℚ := (j : ℚ) / ((nFrames : ℚ) - 1)
      (u, interpAt d.samples (startTime + (endTime - startTime) * u)) }

/-- `LinearTimeNormaliser._normalise_trial`: a fresh `Trial()` (whose events
stay `None`) receiving, per category, the time-normalised array. -/
def normalise_trial (nFrames : ℕ) (trial : Trial) : Trial :=
  { data := trial.data.map (fun cd => (cd.1, time_normalize cd.2 nFrames))
    events := none }

mutual
/-- `LinearTimeNormaliser.normalise`: recurses into a `SegmentedTrial` and
applies the per-trial transform at the leaves. -/
def normalise (nFrames : ℕ) : BaseTrial → BaseTrial
  | .seg s => .seg (normalise_segmented nFrames s)
  | .leaf t => .leaf (normalise_trial nFrames t)
/-- `LinearTimeNormaliser._normalise_segmented_trial`: a fresh
`SegmentedTrial` receiving each segment's normalised value under the same
key. -/
def normalise_segmented (nFrames : ℕ) : Segments → Segments
  | .nil => .nil
  | .cons k c rest => .cons k (normalise nFrames c) (normalise_segmented nFrames rest)
end

/-! ## model.py — hierarchical persistence (`to_hdf5`) -/

/-- A filesystem path, as its list of components (`pathlib.Path`). -/
structure FPath where
  parts : List String
deriving DecidableEq, Repr

/-- `path / key`: appends one component. -/
def FPath.child (p : FPath) (key : String) : FPath :=
  ⟨p.parts ++ [key]⟩

/-- `Path.name`: the final component ("" for an empty path). -/
def FPath.name (p : FPath) : String :=
  p.parts.getLastD ""

/-- The index of the last "." of a component, when any. -/
def lastDotIdx (cs : List Char) : Option ℕ :=
  ((cs.enum.filter (fun ic => ic.2 == '.')).getLast?).map (·.1)

/-- `Path.suffix` (CPython rule): the final component from its last dot on,
provided that dot is neither the first nor the last character; else "". -/
def FPath.suffix (p : FPath) : String :=
  let cs := p.name.toList
  match lastDotIdx cs with
  | some i => if 0 < i ∧ i < cs.length - 1 then String.mk (cs.drop i) else ""
  | none => ""

/-- `Path.with_suffix(".h5")`: the path with the final component's suffix
replaced (or appended) by `.h5`. -/
def FPath.withSuffixH5 (p : FPath) : FPath :=
  let cs := p.name.toList
  let stem :=
    match lastDotIdx cs with
    | some i => if 0 < i ∧ i < cs.length - 1 then String.mk (cs.take i) else p.name
    | none => p.name
  ⟨p.parts.dropLast ++ [stem ++ ".h5"]⟩

/-- `str(path)` with "/" separators, as used in error messages. -/
def FPath.render (p : FPath) : String :=
  String.intercalate "/" p.parts

/-- `file_path.name.split(".")[-1]`. -/
def lastDotPiece (s : String) : String :=
  (s.splitOn ".").getLastD ""

/-- An entry of the untyped Python lists returned by `_to_hdf5`: either a
`Path` object (an intended save target) or a group-name string. -/
inductive HName where
  | path (p : FPath)
  | group (g : String)
deriving DecidableEq, Repr

/-- One dataset handed to `xarray.save_mfdataset`: either a category array
(`data.to_dataset()`) or an event table (`events.to_xarray()`). -/
inductive PlanData where
  | arr (d : DataArray)
  | ev (t : EventTable)
deriving DecidableEq, Repr

/-- The triple `(paths, data, groups)` returned by `_to_hdf5`. -/
def Hdf5Plan := List HName × List PlanData × List HName

/-- A filesystem side effect performed while saving. -/
inductive FsEffect where
  | mkdir (p : FPath)
  | write (target : HName) (group : HName) (d : PlanData)
deriving DecidableEq, Repr

/-- `Trial._to_hdf5`: category groups `base_group + category.value` (when any
data is present) followed by an `events` group (when events are present), all
targeting `file_path`; returns `(paths, data, groups)` and performs no
filesystem effect itself. -/
def trialPlan (t : Trial) (filePath : FPath) (baseGroup : Option String) : Hdf5Plan :=
  let b := baseGroup.getD ""
  let catPaths := if t.data.length > 0 then t.data.map (fun _ => HName.path filePath) else []
  let catData := if t.data.length > 0 then t.data.map (fun cd => PlanData.arr cd.2) else []
  let catGroups :=
    if t.data.length > 0 then t.data.map (fun cd => HName.group (b ++ cd.1.value)) else []
  match t.events with
  | some e =>
    (catPaths ++ [HName.path filePath], catData ++ [PlanData.ev e],
      catGroups ++ [HName.group (b ++ "events")])
  | none => (catPaths, catData, catGroups)

mutual
/-- `BaseTrial._to_hdf5` dispatch, paired with the filesystem effects
(`mkdir` calls) it performs. -/
def planOf : BaseTrial → FPath → Option String → Hdf5Plan × List FsEffect
  | .leaf t, fp, bg => (trialPlan t fp bg, [])
  | .seg s, fp, bg =>
    segPlan s fp (match bg with | none => "" | some b => b ++ "/")
/-- `SegmentedTrial._to_hdf5` loop body: per segment, `mkdir` the current
path unless its name ends in `.h5`; a `Trial` child gets the file
`(file_path / key).with_suffix(".h5")`, a `SegmentedTrial` child extends the
base group by its key.  The child's returned triple is unpacked as
`seg_groups, seg_data, seg_path` — first and third component swapped — and
accumulated into `groups`, `data`, `paths` respectively. -/
def segPlan : Segments → FPath → String → Hdf5Plan × List FsEffect
  | .nil, _, _ => (([], [], []), [])
  | .cons key child rest, fp, bg =>
    let mk : List FsEffect :=
      if lastDotPiece fp.name ≠ "h5" then [FsEffect.mkdir fp] else []
    let newFile := match child with | .leaf _ => (fp.child key).withSuffixH5 | .seg _ => fp
    let newBg := match child with | .seg _ => bg ++ key | .leaf _ => bg
    let cp := planOf child newFile (some newBg)
    let rp := segPlan rest fp bg
    ((cp.1.2.2 ++ rp.1.1, cp.1.2.1 ++ rp.1.2.1, cp.1.1 ++ rp.1.2.2),
      mk ++ cp.2 ++ rp.2)
end

/-- `type(self) is SegmentedTrial`. -/
def BaseTrial.isSeg : BaseTrial → Bool
  | .seg _ => true
  | .leaf _ => false

/-- `xarray.save_mfdataset(data, paths, groups=groups)`: one write per
position of the zipped lists. -/
def zipWrites : List HName → List PlanData → List HName → List FsEffect
  | p :: ps, d :: ds, g :: gs => .write p g d :: zipWrites ps ds gs
  | _, _, _ => []

/-- A Python exception raised by `to_hdf5`, by class and message. -/
inductive PyError where
  | fileExists (msg : String)
  | valueError (msg : String)
deriving DecidableEq, Repr

/-- The outcome of a `to_hdf5` call: the filesystem effects performed, and
the exception (if any) that aborted it. -/
structure SaveResult where
  effects : List FsEffect
  error : Option PyError
deriving DecidableEq, Repr

/-- `BaseTrial.to_hdf5`: rejects an existing target, then a segmented trial
aimed at a suffixed path, then a bare trial aimed at a suffix-less path —
all three before any filesystem effect — then computes the plan (performing
its `mkdir` effects) and either writes every dataset or raises
`"No data to save."`. -/
def to_hdf5 (self : BaseTrial) (filePath : FPath) (exists? : FPath → Bool) :
    SaveResult :=
  if exists? filePath then
    ⟨[], some (.fileExists ("File " ++ filePath.render ++ " already exists."))⟩
  else if self.isSeg && filePath.suffix ≠ "" then
    ⟨[], some (.valueError "Cannot save a segmented trial in a single file.")⟩
  else if !self.isSeg && filePath.suffix = "" then
    ⟨[], some (.valueError "Cannot save a trial in folder")⟩
  else
    let pe := planOf self filePath none
    if pe.1.2.1.length > 0 then
      ⟨pe.2 ++ zipWrites pe.1.1 pe.1.2.1 pe.1.2.2, none⟩
    else
      ⟨pe.2, some (.valueError "No data to save.")⟩

/-- Decidable equality for `Except` results, so that concrete runs of the
fallible functions can be checked by `decide`. -/
instance {ε α : Type} [DecidableEq ε] [DecidableEq α] : DecidableEq (Except ε α)
  | .error e, .error f =>
    if h : e = f then .isTrue (by rw [h]) else .isFalse (by simp [h])
  | .error _, .ok _ => .isFalse (by simp)
  | .ok _, .error _ => .isFalse (by simp)
  | .ok a, .ok b =>
    if h : a = b then .isTrue (by rw [h]) else .isFalse (by simp [h])

/-! ## Concrete inputs used by counterexamples and witnesses -/

/-- Four alternating Foot Strike / Foot Off events, balanced contexts. -/
def goodTable : EventTable :=
  ⟨[⟨1, "Foot Strike", "Right", none⟩, ⟨2, "Foot Off", "Left", none⟩,
    ⟨3, "Foot Strike", "Left", none⟩, ⟨4, "Foot Off", "Right", none⟩], {}⟩

/-- Four consecutive Foot Strike events (three label-alternation violations),
contexts alternating (no context violation). -/
def repeatedLabelTable : EventTable :=
  ⟨[⟨1, "Foot Strike", "Right", none⟩, ⟨2, "Foot Strike", "Left", none⟩,
    ⟨3, "Foot Strike", "Right", none⟩, ⟨4, "Foot Strike", "Left", none⟩], {}⟩

/-- Four events whose only context over-occurrence sits in the final 3-event
window (rows 1, 2, 3 all `Left`). -/
def tailContextTable : EventTable :=
  ⟨[⟨1, "Foot Strike", "Right", none⟩, ⟨2, "Foot Off", "Left", none⟩,
    ⟨3, "Foot Strike", "Left", none⟩, ⟨4, "Foot Off", "Left", none⟩], {}⟩

/-- Componentwise concatenation of `(paths, data, groups)` triples. -/
def planAppend (p q : Hdf5Plan) : Hdf5Plan :=
  (p.1 ++ q.1, p.2.1 ++ q.2.1, p.2.2 ++ q.2.2)

/-- Exchange of the `paths` and `groups` components (the positional
unpacking mismatch in `SegmentedTrial._to_hdf5`). -/
def swapPlan (p : Hdf5Plan) : Hdf5Plan :=
  (p.2.2, p.2.1, p.1)

/-- Every child of this mapping is a bare `Trial`. -/
def allLeafTrials : Segments → Bool
  | .nil => true
  | .cons _ (.leaf _) rest => allLeafTrials rest
  | .cons _ (.seg _) _ => false

/-- The mapping is exactly two levels deep: context → cycle → `Trial` (the
shape produced by `GaitEventsSegmentation`). -/
def twoLevel : Segments → Bool
  | .nil => true
  | .cons _ (.seg inner) rest => allLeafTrials inner && twoLevel rest
  | .cons _ (.leaf _) _ => false

/-- The per-context plan of the amended layout: each cycle's trial is
planned into the single file `<root>/<cycle_id>.h5` under the group base
`bg` (the context name followed by "/"). -/
def cyclesPlan (fp : FPath) (bg : String) : Segments → Hdf5Plan
  | .nil => ([], [], [])
  | .cons k child rest =>
    planAppend
      (match child with
       | .leaf t => trialPlan t ((fp.child k).withSuffixH5) (some bg)
       | .seg _ => ([], [], []))
      (cyclesPlan fp bg rest)

/-- The amended on-disk layout of a two-level segmented save rooted at `fp`:
the concatenation, context by context, of the per-cycle trial plans — one
file `<root>/<cycle_id>.h5` per cycle, the context appearing only as the
HDF5 group base `<context>/` inside that file. -/
def contextsPlan (fp : FPath) : Segments → Hdf5Plan
  | .nil => ([], [], [])
  | .cons c child rest =>
    planAppend
      (match child with
       | .seg inner => cyclesPlan fp (c ++ "/") inner
       | .leaf _ => ([], [], []))
      (contextsPlan fp rest)

/-- A segmented cycle's event table as temporal-feature calculation expects
it: stamped attributes and the contra foot-off / contra foot-strike / ipsi
foot-off rows. -/
def c5table : EventTable :=
  { rows := [⟨2, "Foot Off", "Right", none⟩, ⟨3, "Foot Strike", "Right", none⟩,
             ⟨4, "Foot Off", "Left", none⟩]
    attrs := { end_time := some 5, context := some "Left", cycle_id := some 0 } }

/-- A cycle sub-trial carrying `c5table`. -/
def c5trial : Trial := { data := [], events := some c5table }

/-- The parent event table used by the C7 witness. -/
def c7table : EventTable :=
  ⟨[⟨1, "Foot Strike", "Left", none⟩, ⟨2, "Foot Off", "Right", none⟩,
    ⟨3, "Foot Strike", "Right", none⟩, ⟨4, "Foot Off", "Left", none⟩,
    ⟨5, "Foot Strike", "Left", none⟩, ⟨6, "Foot Strike", "Right", none⟩], {}⟩

/-- A data-less trial carrying `c7table`. -/
def c7trial : Trial := { data := [], events := some c7table }

/-- The trial exhibiting the C1 divergence (the reader produces event tables
with empty `attrs`). -/
def c1trial : Trial :=
  { data := []
    events := some ⟨[⟨1, "Foot Strike", "Left", none⟩, ⟨2, "Foot Off", "Right", none⟩,
      ⟨3, "Foot Strike", "Right", none⟩, ⟨4, "Foot Off", "Left", none⟩,
      ⟨5, "Foot Strike", "Left", none⟩, ⟨6, "Foot Strike", "Right", none⟩], {}⟩ }

/-- The event table used by the C2 witness: three Left and three Right
boundary events. -/
def c2table : EventTable :=
  ⟨[⟨1, "Foot Strike", "Left", none⟩, ⟨2, "Foot Off", "Right", none⟩,
    ⟨3, "Foot Strike", "Right", none⟩, ⟨4, "Foot Off", "Left", none⟩,
    ⟨5, "Foot Strike", "Left", none⟩, ⟨6, "Foot Strike", "Right", none⟩], {}⟩

/-- A markers array sampling every event time of `c2table`. -/
def c2array : DataArray :=
  ⟨["RHEE"], [(1, [10]), (2, [11]), (3, [12]), (4, [13]), (5, [14]), (6, [15])],
    { rate := 1 }⟩

/-- The trial used by the C2 witness. -/
def c2trial : Trial := { data := [(.markers, c2array)], events := some c2table }

/-- The event table used by the C10 witness: the Right context occurs only in
a non-boundary (Foot Off) event, so it has zero boundary events. -/
def c10table : EventTable :=
  ⟨[⟨1, "Foot Strike", "Left", none⟩, ⟨2, "Foot Off", "Right", none⟩,
    ⟨3, "Foot Strike", "Left", none⟩], {}⟩

/-- The trial used by the C10 witness. -/
def c10trial : Trial :=
  { data := [(.markers, ⟨["RHEE"], [(1, [10]), (2, [11]), (3, [12])], { rate := 1 }⟩)]
    events := some c10table }

/-- The bare trial used by the C8 witness. -/
def c8leaf : Trial :=
  { data := [(.markers, ⟨["RHEE"], [(1, [10])], { rate := 1 }⟩)], events := none }

/-- The event table of the C9 cycle. -/
def c9table : EventTable :=
  ⟨[⟨2, "Foot Off", "Right", none⟩, ⟨3, "Foot Strike", "Right", none⟩,
    ⟨4, "Foot Off", "Left", none⟩],
   { end_time := some 5, context := some "Left", cycle_id := some 0 }⟩

/-- A cycle leaf carrying a non-null event table. -/
def c9leaf : Trial := { data := [], events := some c9table }

/-- A two-level segmented container holding `c9leaf` under Left / 0. -/
def c9segs : Segments := .cons "Left" (.seg (.cons "0" (.leaf c9leaf) .nil)) .nil

/-- The single-cycle leaf used by the C6 inputs. -/
def c6leaf : Trial :=
  { data := [(.markers, ⟨["RHEE"], [(1, [10])], { rate := 1 }⟩)], events := none }

/-- A two-level segmented container: context "Left" with one cycle "0". -/
def c6segs : Segments := .cons "Left" (.seg (.cons "0" (.leaf c6leaf) .nil)) .nil

/-- Four events whose first 3-event window has `Left` three times (a
recorded context violation). -/
def c4posTable : EventTable :=
  ⟨[⟨1, "Foot Strike", "Left", none⟩, ⟨2, "Foot Off", "Left", none⟩,
    ⟨3, "Foot Strike", "Left", none⟩, ⟨4, "Foot Off", "Right", none⟩], {}⟩

/-! ## Helper lemmas -/

theorem lt_foldl_max (l : List ℕ) (a k : ℕ) :
    k < l.foldl max a ↔ k < a ∨ ∃ x ∈ l, k < x := by
  induction l generalizing a with
  | nil => simp
  | cons b t ih =>
    rw [List.foldl_cons, ih, lt_max_iff]
    simp only [List.mem_cons]
    constructor
    · rintro ((h | h) | ⟨x, hx, hkx⟩)
      · exact Or.inl h
      · exact Or.inr ⟨b, Or.inl rfl, h⟩
      · exact Or.inr ⟨x, Or.inr hx, hkx⟩
    · rintro (h | ⟨x, rfl | hx, hkx⟩)
      · exact Or.inl (Or.inl h)
      · exact Or.inl (Or.inr hkx)
      · exact Or.inr ⟨x, hx, hkx⟩

theorem max_occurrence_gt_two_iff (w : List Event) :
    max_occurrence w > 2 ↔ ∃ c, 3 ≤ w.countP (fun x => x.context == c) := by
  unfold max_occurrence
  rw [gt_iff_lt, lt_foldl_max]
  simp only [Nat.not_lt_zero, false_or, List.mem_map]
  constructor
  · rintro ⟨x, ⟨e, he, rfl⟩, hx⟩
    exact ⟨e.context, hx⟩
  · rintro ⟨c, hc⟩
    have hpos : 0 < w.countP (fun x => x.context == c) := by omega
    obtain ⟨e, he, hec⟩ := List.countP_pos_iff.mp hpos
    refine ⟨w.countP (fun x => x.context == e.context), ⟨e, he, rfl⟩, ?_⟩
    have : e.context = c := by simpa using hec
    rw [this]
    omega

/-! ## C4 — context-balance sliding windows -/

/-- C4 counterexample: in `tailContextTable` the final 3-event window (start
index 1) has `Left` occurring three times, yet `_check_contexts` records no
violation at all, because the loop runs only over `range(len(events) - 3)`. -/
theorem c4_counterexample :
    check_contexts tailContextTable = [] ∧
      3 ≤ ((tailContextTable.rows.drop 1).take 3).countP
        (fun x => x.context == "Left") := by
  decide

/-- C4 (amended): `_check_contexts` records `(time[i], time[i+3])` exactly
for those window start indices `i` with `i + 3 < len(events)` (so the final
3-event window, which has no following event, is never examined) at which a
single context value appears more than twice among events `i, i+1, i+2`. -/
theorem c4_amended (tbl : EventTable) (a b : ℚ) :
    (a, b) ∈ check_contexts tbl ↔
      ∃ i, i + 3 < tbl.rows.length ∧
        (∃ c, 3 ≤ ((tbl.rows.drop i).take 3).countP (fun x => x.context == c)) ∧
        a = (tbl.rows.getD i default).time ∧
        b = (tbl.rows.getD (i + 3) default).time := by
  unfold check_contexts
  rw [List.mem_filterMap]
  constructor
  · rintro ⟨i, hi, hf⟩
    rw [List.mem_range] at hi
    by_cases hocc : max_occurrence ((tbl.rows.drop i).take 3) > 2
    · rw [if_pos hocc] at hf
      obtain ⟨rfl, rfl⟩ := Prod.mk.injEq .. ▸ Option.some.injEq .. ▸ hf
      refine ⟨i, by omega, (max_occurrence_gt_two_iff _).mp hocc, ?_, ?_⟩ <;> rfl
    · rw [if_neg hocc] at hf
      exact absurd hf (by simp)
  · rintro ⟨i, hi, hocc, rfl, rfl⟩
    refine ⟨i, List.mem_range.mpr (by omega), ?_⟩
    rw [if_pos ((max_occurrence_gt_two_iff _).mpr hocc)]

/-- C4 witness: the amended characterisation applied at window start 0 of a
table whose first three events share the `Left` context. -/
theorem c4_witness : ((1 : ℚ), (4 : ℚ)) ∈ check_contexts c4posTable :=
  (c4_amended c4posTable 1 4).mpr
    ⟨0, by decide, ⟨"Left", by decide⟩, by decide, by decide⟩

/-! ## C3 — check_events result shape -/

/-- C3 counterexample: on `repeatedLabelTable` the label check yields three
violation windows and the context check none, yet `check_events` returns a
singleton nested list (the label-check list appended as one element), not the
three-element flat concatenation the claim describes. -/
theorem c3_counterexample :
    check_events (some repeatedLabelTable) =
        .ok (false, some [[(1, 2), (2, 3), (3, 4)]]) ∧
      (check_labels repeatedLabelTable ++ check_contexts repeatedLabelTable).length = 3 ∧
      ∀ V : List (List (ℚ × ℚ)),
        check_events (some repeatedLabelTable) = .ok (false, some V) → V.length = 1 := by
  refine ⟨by decide, by decide, ?_⟩
  intro V hV
  have : V = [[(1, 2), (2, 3), (3, 4)]] := by
    have h := hV.symm.trans (by decide :
      check_events (some repeatedLabelTable) = .ok (false, some [[(1, 2), (2, 3), (3, 4)]]))
    simpa using h
  simp [this]

/-- C3 (amended): `check_events` is valid exactly when both checks produce
zero violations, and when invalid the second component is the *nested* list
holding each check's non-empty violation list (labels first) — its
flattening, not the value itself, is the concatenation of the two checks'
violation lists; when valid the second component is `None`. -/
theorem c3_amended (tbl : EventTable) :
    ∃ b v, check_events (some tbl) = .ok (b, v) ∧
      (b = true ↔ check_labels tbl = [] ∧ check_contexts tbl = []) ∧
      (b = true → v = none) ∧
      (b = false → v ≠ none) ∧
      ∀ V, v = some V →
        V ≠ [] ∧ V.flatten = check_labels tbl ++ check_contexts tbl := by
  by_cases hL : check_labels tbl = [] <;> by_cases hC : check_contexts tbl = [] <;>
    refine ⟨_, _, rfl, ?_, ?_, ?_, ?_⟩ <;>
    simp_all [check_events, List.isEmpty_iff]

/-- C3 witness: the amended theorem applied to `goodTable` (no violations)
forces the valid outcome `(True, None)`. -/
theorem c3_witness : check_events (some goodTable) = .ok (true, none) := by
  obtain ⟨b, v, h1, h2, h3, _, _⟩ := c3_amended goodTable
  have hb : b = true := h2.mpr (by decide)
  rw [hb] at h1 h3
  rw [h3 rfl] at h1
  exact h1

/-! ## C5 — temporal features -/

/-- C5: with stamped attributes `end_time = endT`, `context = ctx`,
`cycle_id = cid`, a cycle whose event table holds exactly one own-context row
(time `ipsi_fo`) and exactly two opposite-context rows (Foot Strike time
`contra_fs`, Foot Off time `contra_fo`) yields exactly the eight features
`double_support`, `single_support`, `foot_off`, `opposite_foot_off`,
`opposite_foot_contact`, `stride_time`, `step_time`, `cadence` in this order
with the spec's formulas; any other event count yields a descriptive error
naming the context and the cycle-id. -/
theorem c5_theorem (trial : Trial) (tbl : EventTable) (endT : ℚ) (ctx : String)
    (cid : ℕ) (hev : trial.events = some tbl)
    (hattrs : tbl.attrs =
      { end_time := some endT, context := some ctx, cycle_id := some cid }) :
    (∀ eIpsi eC1 eC2 efs efo,
      tbl.rows.filter (fun e => e.context == ctx) = [eIpsi] →
      tbl.rows.filter (fun e => !(e.context == ctx)) = [eC1, eC2] →
      [eC1, eC2].filter (fun e => e.label == FOOT_STRIKE) = [efs] →
      [eC1, eC2].filter (fun e => e.label == FOOT_OFF) = [efo] →
      temporal_calculate trial = .ok
        [("double_support", (efo.time + (eIpsi.time - efs.time)) / endT),
         ("single_support", (efs.time - efo.time) / endT),
         ("foot_off", eIpsi.time / endT),
         ("opposite_foot_off", efo.time / endT),
         ("opposite_foot_contact", efs.time / endT),
         ("stride_time", endT),
         ("step_time", endT - efs.time),
         ("cadence", 60 / (endT / 2))]) ∧
    ((tbl.rows.filter (fun e => e.context == ctx)).length ≠ 1 ∨
        (tbl.rows.filter (fun e => !(e.context == ctx))).length ≠ 2 →
      temporal_calculate trial =
          .error ("Missing events in segment " ++ ctx ++ " nr. " ++ toString cid) ∨
        temporal_calculate trial =
          .error ("Error events sequence " ++ ctx ++ " nr. " ++ toString cid)) := by
  have he1 : tbl.attrs.end_time = some endT := by rw [hattrs]
  have he2 : tbl.attrs.context = some ctx := by rw [hattrs]
  have he3 : tbl.attrs.cycle_id = some cid := by rw [hattrs]
  constructor
  · rintro eIpsi eC1 eC2 efs efo hIpsi hContra hFs hFo
    have hlen3 : tbl.rows.length = 3 := by
      have h := List.length_eq_length_filter_add (l := tbl.rows)
        (fun e => e.context == ctx)
      simp only [hIpsi] at h
      have h2 : tbl.rows.filter (fun a => !(fun e => e.context == ctx) a) =
          [eC1, eC2] := hContra
      rw [h2] at h
      simpa using h
    have hcheck : check_events_validity trial.events =
        .ok (efo.time, efs.time, eIpsi.time, endT) := by
      rw [hev]
      unfold check_events_validity
      simp only [he1, he2, he3, hlen3, hIpsi, hContra, hFs, hFo]
      norm_num [firstTime]
      rfl
    simp [temporal_calculate, hcheck, calculate_supports]
  · intro hbad
    by_cases hlt : tbl.rows.length < 3
    · left
      have hcheck : check_events_validity trial.events =
          .error ("Missing events in segment " ++ ctx ++ " nr. " ++ toString cid) := by
        rw [hev]
        unfold check_events_validity
        simp only [he1, he2, he3]
        simp [hlt]
      simp [temporal_calculate, hcheck]
    · right
      by_cases hi : (tbl.rows.filter (fun e => e.context == ctx)).length = 1
      · have hc2 : (tbl.rows.filter (fun e => !(e.context == ctx))).length ≠ 2 := by
          rcases hbad with h | h
          · exact absurd hi h
          · exact h
        have hcheck : check_events_validity trial.events =
            .error ("Error events sequence " ++ ctx ++ " nr. " ++ toString cid) := by
          rw [hev]
          unfold check_events_validity
          simp only [he1, he2, he3]
          simp [hlt, hi, hc2]
        simp [temporal_calculate, hcheck]
      · have hcheck : check_events_validity trial.events =
            .error ("Error events sequence " ++ ctx ++ " nr. " ++ toString cid) := by
          rw [hev]
          unfold check_events_validity
          simp only [he1, he2, he3]
          simp [hlt, hi]
        simp [temporal_calculate, hcheck]

/-- C5 witness: the theorem applied to a concrete Left cycle with
`contra_fo = 2`, `contra_fs = 3`, `ipsi_fo = 4`, `end = 5`. -/
theorem c5_witness :
    temporal_calculate c5trial = .ok
      [("double_support", (3 : ℚ) / 5), ("single_support", (1 : ℚ) / 5),
       ("foot_off", (4 : ℚ) / 5), ("opposite_foot_off", (2 : ℚ) / 5),
       ("opposite_foot_contact", (3 : ℚ) / 5), ("stride_time", (5 : ℚ)),
       ("step_time", (2 : ℚ)), ("cadence", (24 : ℚ))] := by
  have h := (c5_theorem c5trial c5table 5 "Left" 0 rfl rfl).1
    ⟨4, "Foot Off", "Left", none⟩ ⟨2, "Foot Off", "Right", none⟩
    ⟨3, "Foot Strike", "Right", none⟩ ⟨3, "Foot Strike", "Right", none⟩
    ⟨2, "Foot Off", "Right", none⟩ (by decide) (by decide) (by decide) (by decide)
  rw [h]
  norm_num

/-! ## C7 / C1 — event slicing of a cycle sub-trial -/

theorem except_bind_ok {ε α β : Type} {a : Except ε α} {f : α → Except ε β} {b : β}
    (h : a >>= f = .ok b) : ∃ x, a = .ok x ∧ f x = .ok b := by
  cases a with
  | error e => simp [Bind.bind, Except.bind] at h
  | ok x => exact ⟨x, rfl, by simpa [Bind.bind, Except.bind] using h⟩

/-- C7: whenever `_get_segment` succeeds, the sub-trial's event table is
exactly the parent's full event table restricted to the strictly-open window
`(start, end)`, with the parent's `attrs`: a row survives iff
`start < t < end`, so the boundary events themselves are excluded and every
intermediate row of any label or context is retained. -/
theorem c7_theorem (trial : Trial) (tbl : EventTable) (s e : ℚ) (k : ℕ)
    (c : String) (t' : Trial) (hev : trial.events = some tbl)
    (hok : get_segment trial s e k c = .ok t') :
    t'.events = some { rows := tbl.rows.filter (fun ev => s < ev.time && ev.time < e)
                       attrs := tbl.attrs } ∧
      ∀ ev ∈ tbl.rows,
        ev ∈ (tbl.rows.filter (fun ev => s < ev.time && ev.time < e)) ↔
          s < ev.time ∧ ev.time < e := by
  constructor
  · unfold get_segment at hok
    obtain ⟨d, hd, hok2⟩ := except_bind_ok hok
    obtain ⟨evs, hevs, hok3⟩ := except_bind_ok hok2
    rw [hev] at hevs
    unfold segment_events at hevs
    have hevs' : evs =
        { rows := tbl.rows.filter (fun ev => s < ev.time && ev.time < e)
          attrs := tbl.attrs } := by
      cases hevs
      rfl
    have ht' : t' = { data := d, events := some evs } := by
      cases hok3
      rfl
    rw [ht', hevs']
  · intro ev hmem
    simp [List.mem_filter, hmem]

/-- C7 witness: slicing the concrete trial to the cycle `(1, 5)` keeps
exactly the interior rows. -/
theorem c7_witness :
    ∃ t', get_segment c7trial 1 5 0 "Left" = .ok t' ∧
      t'.events = some { rows := c7table.rows.filter (fun ev => 1 < ev.time && ev.time < 5)
                         attrs := c7table.attrs } := by
  refine ⟨_, rfl, ?_⟩
  exact (c7_theorem c7trial c7table 1 5 0 "Left" _ rfl rfl).1

/-- C1: segmentation never writes `end_time` / `context` / `cycle_id` into
the sub-trial's event-table `attrs` — on the concrete trial the Left cycle 0
exists, its event table still has all three attributes absent, and the
temporal-feature calculation therefore fails with the `KeyError` for
`end_time` instead of computing features. -/
theorem c1_code_bug :
    ∃ s, segment "Foot Strike" c1trial = .ok s ∧
      ∃ t, s.leafAt ["Left", "0"] = some t ∧
        (∃ etbl, t.events = some etbl ∧ etbl.attrs.end_time = none ∧
          etbl.attrs.context = none ∧ etbl.attrs.cycle_id = none) ∧
        check_events_validity t.events = .error "KeyError: end_time" ∧
        temporal_calculate t = .error "KeyError: end_time" := by
  exact ⟨_, rfl, _, rfl, ⟨_, rfl, rfl, rfl, rfl⟩, rfl, rfl⟩

/-! ## C2 / C10 — segmentation structure -/

theorem mapM_ok {α β : Type} (f : α → Except String β) (g : α → β) :
    ∀ l : List α, (∀ a ∈ l, f a = .ok (g a)) → l.mapM f = .ok (l.map g) := by
  intro l h
  induction l with
  | nil => rfl
  | cons a t ih =>
    rw [List.map_cons, List.mapM_cons, h a (by simp),
      ih (fun x hx => h x (List.mem_cons_of_mem a hx))]
    rfl

theorem update_attrs_ok (d : DataArray) (cycleId : ℕ) (context : String)
    (h : d.samples ≠ []) :
    update_attrs d cycleId context = .ok (stamped d cycleId context) := by
  cases hs : d.samples with
  | nil => exact absurd hs h
  | cons s0 rest => simp only [update_attrs, stamped, hs]

theorem get_segment_ok (trial : Trial) (tbl : EventTable) (startTime endTime : ℚ)
    (cycleId : ℕ) (context : String) (hev : trial.events = some tbl)
    (hne : ∀ cd ∈ trial.data, (selTime cd.2 startTime endTime).samples ≠ []) :
    get_segment trial startTime endTime cycleId context =
      .ok (seg_trial trial tbl startTime endTime cycleId context) := by
  unfold get_segment
  have hm : trial.data.mapM (segment_category startTime endTime cycleId context) =
      .ok (trial.data.map fun cd =>
        (cd.1, stamped (selTime cd.2 startTime endTime) cycleId context)) := by
    apply mapM_ok
    intro cd hcd
    unfold segment_category
    simp only [update_attrs_ok _ _ _ (hne cd hcd)]
    rfl
  rw [hm, hev]
  rfl

theorem get_times_eq (eventLabel : String) (tbl : EventTable) :
    get_times_of_events eventLabel tbl =
      (uniqueContexts tbl.rows).map fun c => (c, boundary_times eventLabel tbl c) :=
  rfl

theorem sortedTimes_chain' (l : List ℚ) :
    sortedTimes l = true ↔ l.Chain' (· ≤ ·) := by
  induction l with
  | nil => simp [sortedTimes]
  | cons a t ih =>
    cases t with
    | nil => simp [sortedTimes]
    | cons b r =>
      rw [List.chain'_cons, ← ih]
      simp [sortedTimes]

theorem sortedByTime_pairwise (rows : List Event) (h : sortedByTime rows = true) :
    rows.Pairwise (fun a b => a.time ≤ b.time) := by
  unfold sortedByTime at h
  exact List.pairwise_map.mp (List.chain'_iff_pairwise.mp ((sortedTimes_chain' _).mp h))

theorem boundary_times_sorted (eventLabel : String) (tbl : EventTable)
    (context : String) (h : sortedByTime tbl.rows = true) :
    (boundary_times eventLabel tbl context).Pairwise (· ≤ ·) := by
  unfold boundary_times
  exact List.pairwise_map.mpr
    (((sortedByTime_pairwise tbl.rows h).filter _).filter _)

theorem pairwise_getD_le (l : List ℚ) (h : l.Pairwise (· ≤ ·)) (k : ℕ)
    (hk : k + 1 < l.length) : l.getD k 0 ≤ l.getD (k + 1) 0 := by
  rw [List.getD_eq_getElem l 0 (by omega), List.getD_eq_getElem l 0 hk]
  exact List.pairwise_iff_getElem.mp h k (k + 1) (by omega) hk (by omega)

theorem covers_window (trial : Trial) (eventLabel : String) (tbl : EventTable)
    (hsorted : sortedByTime tbl.rows = true)
    (hcovers : covers trial eventLabel tbl = true) :
    ∀ ct ∈ get_times_of_events eventLabel tbl, ∀ k, k + 1 < ct.2.length →
      ∀ cd ∈ trial.data,
        (selTime cd.2 (ct.2.getD k 0) (ct.2.getD (k + 1) 0)).samples ≠ [] := by
  intro ct hct k hk cd hcd
  have hts : ct.2.Pairwise (· ≤ ·) := by
    rw [get_times_eq] at hct
    obtain ⟨c, _, rfl⟩ := List.mem_map.mp hct
    exact boundary_times_sorted eventLabel tbl c hsorted
  have hle : ct.2.getD k 0 ≤ ct.2.getD (k + 1) 0 := pairwise_getD_le ct.2 hts k hk
  have hmemt : ct.2.getD k 0 ∈ ct.2 := by
    rw [List.getD_eq_getElem ct.2 0 (by omega)]
    exact List.getElem_mem _
  have hsm : ∃ sm ∈ cd.2.samples, sm.1 = ct.2.getD k 0 := by
    unfold covers at hcovers
    rw [List.all_eq_true] at hcovers
    have h1 := hcovers ct hct
    rw [List.all_eq_true] at h1
    have h2 := h1 (ct.2.getD k 0) hmemt
    rw [List.all_eq_true] at h2
    have h3 := h2 cd hcd
    rw [List.any_eq_true] at h3
    obtain ⟨sm, hsm, heq⟩ := h3
    exact ⟨sm, hsm, by simpa using heq⟩
  obtain ⟨sm, hsm, heq⟩ := hsm
  apply List.ne_nil_of_mem (a := sm)
  unfold selTime
  simp only [List.mem_filter]
  refine ⟨hsm, ?_⟩
  simp only [Bool.and_eq_true, decide_eq_true_eq]
  constructor
  · rw [heq]
  · rw [heq]; exact hle

theorem segment_ok (eventLabel : String) (trial : Trial) (tbl : EventTable)
    (hev : trial.events = some tbl)
    (hcov : ∀ ct ∈ get_times_of_events eventLabel tbl, ∀ k, k + 1 < ct.2.length →
      ∀ cd ∈ trial.data,
        (selTime cd.2 (ct.2.getD k 0) (ct.2.getD (k + 1) 0)).samples ≠ []) :
    segment eventLabel trial = .ok (.seg (seg_result eventLabel trial tbl)) := by
  unfold segment
  have hm : (get_times_of_events eventLabel tbl).mapM (build_context trial) =
      .ok ((get_times_of_events eventLabel tbl).map fun ct =>
        (ct.1, BaseTrial.seg (Segments.ofList ((List.range (ct.2.length - 1)).map fun k =>
          (toString k, BaseTrial.leaf
            (seg_trial trial tbl (ct.2.getD k 0) (ct.2.getD (k + 1) 0) k ct.1)))))) := by
    apply mapM_ok
    intro ct hct
    unfold build_context
    have hm2 : (List.range (ct.2.length - 1)).mapM (build_cycle trial ct) =
        .ok ((List.range (ct.2.length - 1)).map fun k =>
          (toString k, BaseTrial.leaf
            (seg_trial trial tbl (ct.2.getD k 0) (ct.2.getD (k + 1) 0) k ct.1))) := by
      apply mapM_ok
      intro k hk
      rw [List.mem_range] at hk
      unfold build_cycle
      simp only [get_segment_ok trial tbl _ _ _ _ hev
        (hcov ct hct k (by omega))]
      rfl
    rw [hm2]
    rfl
  rw [hev]
  simp only [hm]
  rfl

theorem mem_uniqueAux (l : List String) :
    ∀ (seen : List String) (x : String),
      x ∈ uniqueAux seen l ↔ x ∈ l ∧ x ∉ seen := by
  induction l with
  | nil => simp [uniqueAux]
  | cons a t ih =>
    intro seen x
    unfold uniqueAux
    by_cases h : seen.contains a
    · rw [if_pos h, ih]
      have ha : a ∈ seen := by simpa using h
      simp only [List.mem_cons]
      constructor
      · rintro ⟨hx, hns⟩
        exact ⟨Or.inr hx, hns⟩
      · rintro ⟨rfl | hx, hns⟩
        · exact absurd ha hns
        · exact ⟨hx, hns⟩
    · rw [if_neg h]
      have ha : a ∉ seen := by simpa using h
      simp only [List.mem_cons, ih]
      constructor
      · rintro (rfl | ⟨hx, hns⟩)
        · exact ⟨Or.inl rfl, ha⟩
        · exact ⟨Or.inr hx, fun hs => hns (Or.inr hs)⟩
      · rintro ⟨rfl | hx, hns⟩
        · exact Or.inl rfl
        · by_cases hxa : x = a
          · exact Or.inl hxa
          · exact Or.inr ⟨hx, by simp [hxa, hns]⟩

theorem nodup_uniqueAux (l : List String) :
    ∀ seen : List String, (uniqueAux seen l).Nodup := by
  induction l with
  | nil => intro seen; simp [uniqueAux]
  | cons a t ih =>
    intro seen
    unfold uniqueAux
    by_cases h : seen.contains a
    · rw [if_pos h]; exact ih seen
    · rw [if_neg h]
      refine List.nodup_cons.mpr ⟨?_, ih (a :: seen)⟩
      rw [mem_uniqueAux]
      rintro ⟨-, hns⟩
      exact hns (List.mem_cons_self a seen)

theorem mem_uniqueContexts (rows : List Event) (c : String) :
    c ∈ uniqueContexts rows ↔ ∃ e ∈ rows, e.context = c := by
  unfold uniqueContexts
  rw [mem_uniqueAux]
  simp [List.mem_map, eq_comm]

theorem nodup_uniqueContexts (rows : List Event) : (uniqueContexts rows).Nodup :=
  nodup_uniqueAux _ []

theorem entries_ofList (l : List (String × BaseTrial)) :
    (Segments.ofList l).entries = l := by
  induction l with
  | nil => rfl
  | cons a t ih => simp [Segments.ofList, Segments.entries, ih]

theorem keys_ofList (l : List (String × BaseTrial)) :
    (Segments.ofList l).keys = l.map Prod.fst := by
  induction l with
  | nil => rfl
  | cons a t ih => simp [Segments.ofList, Segments.keys, ih]

theorem length_ofList (l : List (String × BaseTrial)) :
    (Segments.ofList l).length = l.length := by
  induction l with
  | nil => rfl
  | cons a t ih => simp [Segments.ofList, Segments.length, ih]

theorem lookup_ofList_map (g : String → BaseTrial) (l : List String)
    (hnd : l.Nodup) (c : String) (hc : c ∈ l) :
    (Segments.ofList (l.map fun x => (x, g x))).lookup c = some (g c) := by
  induction l with
  | nil => cases hc
  | cons a t ih =>
    simp only [List.map_cons, Segments.ofList, Segments.lookup]
    by_cases hac : a = c
    · rw [if_pos hac, hac]
    · rw [if_neg hac]
      rcases List.mem_cons.mp hc with rfl | hct
      · exact absurd rfl hac
      · exact ih (List.nodup_cons.mp hnd).2 hct

theorem lookup_ofList_entry (F : String × List ℚ → BaseTrial) :
    ∀ l : List (String × List ℚ), (l.map Prod.fst).Nodup →
      ∀ (c : String) (ts : List ℚ), (c, ts) ∈ l →
        (Segments.ofList (l.map fun ct => (ct.1, F ct))).lookup c =
          some (F (c, ts)) := by
  intro l
  induction l with
  | nil => intro _ c ts h; cases h
  | cons a t ih =>
    intro hnd c ts hmem
    simp only [List.map_cons, Segments.ofList, Segments.lookup]
    by_cases hac : a.1 = c
    · rw [if_pos hac]
      rcases List.mem_cons.mp hmem with rfl | hmt
      · rfl
      · exfalso
        have : a.1 ∈ t.map Prod.fst := List.mem_map.mpr ⟨(c, ts), hmt, hac.symm⟩
        exact (List.nodup_cons.mp (by simpa using hnd)).1 this
    · rw [if_neg hac]
      rcases List.mem_cons.mp hmem with rfl | hmt
      · exact absurd rfl hac
      · exact ih (List.nodup_cons.mp (by simpa using hnd)).2 c ts hmt

theorem fst_get_times (eventLabel : String) (tbl : EventTable) :
    (get_times_of_events eventLabel tbl).map Prod.fst = uniqueContexts tbl.rows := by
  rw [get_times_eq, List.map_map]
  simp [Function.comp_def]

/-- C2: under the data-model invariants (time-sorted events, categories
spanning the boundary events), segmentation succeeds, and the context `c`
with `N` boundary-label events yields exactly `N - 1` cycles (zero when
`N < 2`, with no error), keyed `"0" .. str(N-2)` in order, cycle `k` built
from the window between boundary times `k` and `k + 1` (the boundary times
being in ascending order). -/
theorem c2_theorem (eventLabel : String) (trial : Trial) (tbl : EventTable)
    (c : String) (hev : trial.events = some tbl)
    (hsorted : sortedByTime tbl.rows = true)
    (hcovers : covers trial eventLabel tbl = true)
    (hc : c ∈ uniqueContexts tbl.rows) :
    ∃ cyc : Segments,
      segment eventLabel trial = .ok (.seg (seg_result eventLabel trial tbl)) ∧
      (seg_result eventLabel trial tbl).lookup c = some (.seg cyc) ∧
      cyc.length = (boundary_times eventLabel tbl c).length - 1 ∧
      cyc.keys = (List.range ((boundary_times eventLabel tbl c).length - 1)).map
        toString ∧
      (boundary_times eventLabel tbl c).Pairwise (· ≤ ·) ∧
      cyc.entries =
        (List.range ((boundary_times eventLabel tbl c).length - 1)).map fun k =>
          (toString k, BaseTrial.leaf (seg_trial trial tbl
            ((boundary_times eventLabel tbl c).getD k 0)
            ((boundary_times eventLabel tbl c).getD (k + 1) 0) k c)) := by
  have hseg := segment_ok eventLabel trial tbl hev
    (covers_window trial eventLabel tbl hsorted hcovers)
  have hmem : (c, boundary_times eventLabel tbl c) ∈
      get_times_of_events eventLabel tbl := by
    rw [get_times_eq]
    exact List.mem_map.mpr ⟨c, hc, rfl⟩
  have hnd : ((get_times_of_events eventLabel tbl).map Prod.fst).Nodup := by
    rw [fst_get_times]
    exact nodup_uniqueContexts tbl.rows
  have hlook := lookup_ofList_entry
    (fun ct => BaseTrial.seg (Segments.ofList
      ((List.range (ct.2.length - 1)).map fun k =>
        (toString k, BaseTrial.leaf
          (seg_trial trial tbl (ct.2.getD k 0) (ct.2.getD (k + 1) 0) k ct.1)))))
    (get_times_of_events eventLabel tbl) hnd c (boundary_times eventLabel tbl c) hmem
  refine ⟨_, hseg, hlook, ?_, ?_, ?_, ?_⟩
  · rw [length_ofList, List.length_map, List.length_range]
  · rw [keys_ofList, List.map_map]
    rfl
  · exact boundary_times_sorted eventLabel tbl c hsorted
  · rw [entries_ofList]

/-- C2 witness: the theorem applied to the concrete trial and the Left
context (two boundary events, hence exactly one cycle keyed "0"). -/
theorem c2_witness :
    ∃ cyc : Segments,
      segment "Foot Strike" c2trial = .ok (.seg (seg_result "Foot Strike" c2trial c2table)) ∧
      (seg_result "Foot Strike" c2trial c2table).lookup "Left" = some (.seg cyc) ∧
      cyc.length = (boundary_times "Foot Strike" c2table "Left").length - 1 ∧
      cyc.keys = (List.range ((boundary_times "Foot Strike" c2table "Left").length - 1)).map
        toString ∧
      (boundary_times "Foot Strike" c2table "Left").Pairwise (· ≤ ·) ∧
      cyc.entries =
        (List.range ((boundary_times "Foot Strike" c2table "Left").length - 1)).map fun k =>
          (toString k, BaseTrial.leaf (seg_trial c2trial c2table
            ((boundary_times "Foot Strike" c2table "Left").getD k 0)
            ((boundary_times "Foot Strike" c2table "Left").getD (k + 1) 0) k "Left")) :=
  c2_theorem "Foot Strike" c2trial c2table "Left" rfl (by decide) (by decide) (by decide)

/-- C10: under the data-model invariants, the segmented result has one
top-level entry for every distinct context occurring anywhere in the full
event table — whether or not it has boundary-label events — and a context
with fewer than two boundary events is mapped to an empty cycle dict rather
than omitted. -/
theorem c10_theorem (eventLabel : String) (trial : Trial) (tbl : EventTable)
    (hev : trial.events = some tbl) (hsorted : sortedByTime tbl.rows = true)
    (hcovers : covers trial eventLabel tbl = true) :
    segment eventLabel trial = .ok (.seg (seg_result eventLabel trial tbl)) ∧
      (seg_result eventLabel trial tbl).keys = uniqueContexts tbl.rows ∧
      (∀ c, c ∈ (seg_result eventLabel trial tbl).keys ↔
        ∃ e ∈ tbl.rows, e.context = c) ∧
      ∀ c, c ∈ uniqueContexts tbl.rows →
        (boundary_times eventLabel tbl c).length < 2 →
        (seg_result eventLabel trial tbl).lookup c = some (.seg .nil) := by
  have hkeys : (seg_result eventLabel trial tbl).keys = uniqueContexts tbl.rows := by
    unfold seg_result
    rw [keys_ofList, List.map_map, ← fst_get_times eventLabel tbl]
    rfl
  refine ⟨segment_ok eventLabel trial tbl hev
    (covers_window trial eventLabel tbl hsorted hcovers), hkeys, ?_, ?_⟩
  · intro c
    rw [hkeys]
    exact mem_uniqueContexts tbl.rows c
  · intro c hc hlt
    have hmem : (c, boundary_times eventLabel tbl c) ∈
        get_times_of_events eventLabel tbl := by
      rw [get_times_eq]
      exact List.mem_map.mpr ⟨c, hc, rfl⟩
    have hnd : ((get_times_of_events eventLabel tbl).map Prod.fst).Nodup := by
      rw [fst_get_times]
      exact nodup_uniqueContexts tbl.rows
    have hlook := lookup_ofList_entry
      (fun ct => BaseTrial.seg (Segments.ofList
        ((List.range (ct.2.length - 1)).map fun k =>
          (toString k, BaseTrial.leaf
            (seg_trial trial tbl (ct.2.getD k 0) (ct.2.getD (k + 1) 0) k ct.1)))))
      (get_times_of_events eventLabel tbl) hnd c (boundary_times eventLabel tbl c) hmem
    have hz : (boundary_times eventLabel tbl c).length - 1 = 0 := by omega
    unfold seg_result
    have hlook2 : (Segments.ofList ((get_times_of_events eventLabel tbl).map fun ct =>
        (ct.1, BaseTrial.seg (Segments.ofList ((List.range (ct.2.length - 1)).map fun k =>
          (toString k, BaseTrial.leaf
            (seg_trial trial tbl (ct.2.getD k 0) (ct.2.getD (k + 1) 0) k ct.1))))))).lookup c =
        some (BaseTrial.seg (Segments.ofList
          ((List.range ((boundary_times eventLabel tbl c).length - 1)).map fun k =>
            (toString k, BaseTrial.leaf (seg_trial trial tbl
              ((boundary_times eventLabel tbl c).getD k 0)
              ((boundary_times eventLabel tbl c).getD (k + 1) 0) k c))))) := hlook
    rw [hz] at hlook2
    simpa [Segments.ofList] using hlook2

/-- C10 witness: on the concrete trial, `Right` (present only through a
non-boundary event) still gets a top-level entry, mapped to the empty cycle
dict. -/
theorem c10_witness :
    segment "Foot Strike" c10trial =
        .ok (.seg (seg_result "Foot Strike" c10trial c10table)) ∧
      (seg_result "Foot Strike" c10trial c10table).keys = uniqueContexts c10table.rows ∧
      (∀ c, c ∈ (seg_result "Foot Strike" c10trial c10table).keys ↔
        ∃ e ∈ c10table.rows, e.context = c) ∧
      ∀ c, c ∈ uniqueContexts c10table.rows →
        (boundary_times "Foot Strike" c10table c).length < 2 →
        (seg_result "Foot Strike" c10trial c10table).lookup c = some (.seg .nil) :=
  c10_theorem "Foot Strike" c10trial c10table rfl (by decide) (by decide)

/-! ## C8 — to_hdf5 failure modes -/

/-- C8: `to_hdf5` raises `FileExistsError` whenever the target exists,
performing no filesystem effect (the existing target is untouched); a
segmented trial aimed at a suffixed path and a bare trial aimed at a
suffix-less path raise `ValueError` before any filesystem effect; and when
the shape checks pass but the computed plan holds no dataset at all, it
raises `"No data to save."` without writing anything. -/
theorem c8_theorem (b : BaseTrial) (fp : FPath) (pathExists : FPath → Bool) :
    (pathExists fp = true →
      to_hdf5 b fp pathExists =
        ⟨[], some (.fileExists ("File " ++ fp.render ++ " already exists."))⟩) ∧
    (pathExists fp = false → b.isSeg = true → fp.suffix ≠ "" →
      to_hdf5 b fp pathExists =
        ⟨[], some (.valueError "Cannot save a segmented trial in a single file.")⟩) ∧
    (pathExists fp = false → b.isSeg = false → fp.suffix = "" →
      to_hdf5 b fp pathExists =
        ⟨[], some (.valueError "Cannot save a trial in folder")⟩) ∧
    (pathExists fp = false → (b.isSeg = true → fp.suffix = "") →
      (b.isSeg = false → fp.suffix ≠ "") → (planOf b fp none).1.2.1 = [] →
      to_hdf5 b fp pathExists =
        ⟨(planOf b fp none).2, some (.valueError "No data to save.")⟩) := by
  refine ⟨?_, ?_, ?_, ?_⟩
  · intro h1
    unfold to_hdf5
    rw [if_pos h1]
  · intro h1 h2 h3
    unfold to_hdf5
    rw [if_neg (by simp [h1]), if_pos (by simp [h2, h3])]
  · intro h1 h2 h3
    unfold to_hdf5
    rw [if_neg (by simp [h1]), if_neg (by simp [h2]), if_pos (by simp [h2, h3])]
  · intro h1 h2 h3 hdata
    unfold to_hdf5
    rw [if_neg (by simp [h1])]
    cases hs : b.isSeg with
    | true =>
      rw [if_neg (by simp [hs, h2 hs]), if_neg (by simp [hs])]
      simp [hdata]
    | false =>
      rw [if_neg (by simp [hs]), if_neg (by simp [hs, h3 hs])]
      simp [hdata]

/-- C8 witness: the four failure modes at concrete inputs — existing target,
segmented-to-file, trial-to-folder, and empty container. -/
theorem c8_witness :
    to_hdf5 (.seg .nil) ⟨["out"]⟩ (fun _ => true) =
        ⟨[], some (.fileExists "File out already exists.")⟩ ∧
      to_hdf5 (.seg .nil) ⟨["out.h5"]⟩ (fun _ => false) =
        ⟨[], some (.valueError "Cannot save a segmented trial in a single file.")⟩ ∧
      to_hdf5 (.leaf c8leaf) ⟨["out"]⟩ (fun _ => false) =
        ⟨[], some (.valueError "Cannot save a trial in folder")⟩ ∧
      to_hdf5 (.seg .nil) ⟨["out"]⟩ (fun _ => false) =
        ⟨[], some (.valueError "No data to save.")⟩ :=
  ⟨(c8_theorem (.seg .nil) ⟨["out"]⟩ (fun _ => true)).1 rfl,
    (c8_theorem (.seg .nil) ⟨["out.h5"]⟩ (fun _ => false)).2.1 rfl rfl (by decide),
    (c8_theorem (.leaf c8leaf) ⟨["out"]⟩ (fun _ => false)).2.2.1 rfl rfl (by decide),
    (c8_theorem (.seg .nil) ⟨["out"]⟩ (fun _ => false)).2.2.2 rfl
      (fun _ => by decide) (by simp [BaseTrial.isSeg]) rfl⟩

/-! ## C9 — time normalisation structure -/

theorem normalise_lookup (n : ℕ) :
    ∀ (s : Segments) (k : String),
      (normalise_segmented n s).lookup k = (s.lookup k).map (normalise n)
  | .nil, _ => rfl
  | .cons k' c rest, k => by
    simp only [normalise_segmented, Segments.lookup]
    by_cases h : k' = k
    · rw [if_pos h, if_pos h]
      rfl
    · rw [if_neg h, if_neg h, normalise_lookup n rest k]

mutual
theorem normalise_leafPaths (n : ℕ) :
    ∀ b : BaseTrial, (normalise n b).leafPaths = b.leafPaths
  | .leaf _ => rfl
  | .seg s => by
    simp only [normalise, BaseTrial.leafPaths]
    exact normalise_leafPaths_seg n s
theorem normalise_leafPaths_seg (n : ℕ) :
    ∀ s : Segments, (normalise_segmented n s).leafPaths = s.leafPaths
  | .nil => rfl
  | .cons k c rest => by
    simp only [normalise_segmented, Segments.leafPaths]
    rw [normalise_leafPaths n c, normalise_leafPaths_seg n rest]
end

theorem normalise_leafAt (n : ℕ) :
    ∀ (p : List String) (b : BaseTrial) (t : Trial),
      b.leafAt p = some t →
        (normalise n b).leafAt p = some (normalise_trial n t) := by
  intro p
  induction p with
  | nil =>
    intro b t h
    cases b with
    | leaf t0 =>
      simp only [BaseTrial.leafAt, Option.some.injEq] at h
      subst h
      rfl
    | seg s => simp [BaseTrial.leafAt] at h
  | cons k ps ih =>
    intro b t h
    cases b with
    | leaf t0 => simp [BaseTrial.leafAt] at h
    | seg s =>
      rw [show normalise n (.seg s) = .seg (normalise_segmented n s) from rfl]
      simp only [BaseTrial.leafAt] at h ⊢
      cases hl : s.lookup k with
      | none => rw [hl] at h; exact absurd h (by simp)
      | some c =>
        rw [hl] at h
        rw [normalise_lookup n s k, hl]
        exact ih c t h

/-- C9 (amended): `normalise` preserves the container structure — the key
paths to leaves are unchanged at every nesting level — and maps each leaf
trial to a new trial holding the same data categories with time-normalised
arrays; however the leaf's event table is **not** carried over: the
normalised trial's events are always `None`. -/
theorem c9_amended (n : ℕ) :
    (∀ b : BaseTrial, (normalise n b).leafPaths = b.leafPaths) ∧
    (∀ (b : BaseTrial) (p : List String) (t : Trial),
      b.leafAt p = some t →
        (normalise n b).leafAt p = some (normalise_trial n t)) ∧
    ∀ t : Trial,
      (normalise_trial n t).data.map Prod.fst = t.data.map Prod.fst ∧
        (normalise_trial n t).data =
          t.data.map (fun cd => (cd.1, time_normalize cd.2 n)) ∧
        (normalise_trial n t).events = none := by
  refine ⟨normalise_leafPaths n, fun b p t h => normalise_leafAt n p b t h, ?_⟩
  intro t
  refine ⟨?_, rfl, rfl⟩
  simp [normalise_trial, List.map_map, Function.comp_def]

/-- C9 counterexample: the normalised container maps the leaf to a trial
whose event table is `None`, not to one carrying the same (non-null) event
table as the input leaf. -/
theorem c9_counterexample :
    ((normalise 100 (.seg c9segs)).leafAt ["Left", "0"]).map Trial.events =
        some none ∧
      ((BaseTrial.seg c9segs).leafAt ["Left", "0"]).map Trial.events =
        some (some c9table) ∧
      c9table.rows ≠ [] := by
  refine ⟨rfl, rfl, by decide⟩

/-- C9 witness: the amended theorem applied to the concrete container — the
leaf keeps its position and categories but loses its events. -/
theorem c9_witness :
    (normalise 100 (.seg c9segs)).leafAt ["Left", "0"] =
      some (normalise_trial 100 c9leaf) :=
  (c9_amended 100).2.1 (.seg c9segs) ["Left", "0"] c9leaf rfl

/-! ## C6 — on-disk layout of a two-level segmented save -/

theorem segPlan_leaves (fp : FPath) (bg : String) :
    ∀ inner : Segments, allLeafTrials inner = true →
      (segPlan inner fp bg).1 = swapPlan (cyclesPlan fp bg inner)
  | .nil, _ => rfl
  | .cons k (.leaf t) rest, h => by
    have ih := segPlan_leaves fp bg rest (by simpa [allLeafTrials] using h)
    simp only [segPlan, planOf, cyclesPlan, planAppend, swapPlan] at ih ⊢
    rw [ih]
  | .cons k (.seg s) rest, h => by
    simp [allLeafTrials] at h

theorem c6_plan_eq (fp : FPath) :
    ∀ s : Segments, twoLevel s = true →
      (segPlan s fp "").1 = contextsPlan fp s
  | .nil, _ => rfl
  | .cons c (.leaf t) rest, h => by simp [twoLevel] at h
  | .cons c (.seg inner) rest, h => by
    have hi : allLeafTrials inner = true ∧ twoLevel rest = true := by
      simpa [twoLevel, Bool.and_eq_true] using h
    have ihrest := c6_plan_eq fp rest hi.2
    have hstr : ("" ++ c) ++ "/" = c ++ "/" := by simp
    simp only [segPlan, planOf, hstr]
    rw [segPlan_leaves fp (c ++ "/") inner hi.1, ihrest]
    simp [contextsPlan, planAppend, swapPlan]

/-- C6 (amended): saving a two-level segmented container (context → cycle →
trial) to a suffix-less root plans every leaf trial into the file
`<root>/<cycle_id>.h5` — named by the innermost key, placed directly under
the root — with the outer context key appearing only as the HDF5 group base
`<context>/` inside that file, not as a directory on disk. -/
theorem c6_amended (fp : FPath) (s : Segments) (h : twoLevel s = true) :
    (planOf (.seg s) fp none).1 = contextsPlan fp s :=
  c6_plan_eq fp s h

/-- C6 counterexample: planning the save of `c6segs` under the root `out`
targets the file `out/0.h5` under group `Left/markers`; no target of the form
`out/Left/0.h5` (a directory per context, as the claim states) occurs. -/
theorem c6_counterexample :
    (planOf (.seg c6segs) ⟨["out"]⟩ none).1.1 = [HName.path ⟨["out", "0.h5"]⟩] ∧
      (planOf (.seg c6segs) ⟨["out"]⟩ none).1.2.2 = [HName.group "Left/markers"] ∧
      HName.path ⟨["out", "Left", "0.h5"]⟩ ∉ (planOf (.seg c6segs) ⟨["out"]⟩ none).1.1 := by
  refine ⟨rfl, rfl, by decide⟩

/-- C6 witness: the amended layout theorem applied to the concrete two-level
container. -/
theorem c6_witness :
    (planOf (.seg c6segs) ⟨["out"]⟩ none).1 = contextsPlan ⟨["out"]⟩ c6segs :=
  c6_amended ⟨["out"]⟩ c6segs (by decide)

end Gaitalytics
